import Mathlib

/-!
Verification of the route-extraction and collection-assembly pipeline of
src/generate_postman.py.  The script is line oriented: it reads each route
source file, scans its lines while accumulating a buffer of comment text,
recognizes route-declaration lines with a regular expression, and shapes the
recognized routes into a nested Postman collection document.

The embedding below works on values of type List Char (one list per source
line).  Whitespace is modelled as the ASCII whitespace characters stripped by
the string trimming of the script.  Regular-expression search is modelled by
a deterministic matcher that is equivalent to the pattern used at line 71 of
the script: the pattern has no backtracking ambiguity, because its character
classes are disjoint from whatever follows them.
-/

namespace Postman

/-- ASCII whitespace, as trimmed by strip and matched by the whitespace class
of the route pattern. -/
def isSpc (c : Char) : Bool :=
  c == ' ' || c == '\t' || c == '\n' || c == '\r' || c == '\x0b' || c == '\x0c'

/-- startsWithL n l is true when the needle n is a leading segment of l. -/
def startsWithL : List Char → List Char → Bool
  | [], _ => true
  | _ :: _, [] => false
  | a :: as, b :: bs => a == b && startsWithL as bs

/-- containsSub n l is true when the needle n occurs contiguously inside l.
This models the substring membership test of the script. -/
def containsSub (n : List Char) : List Char → Bool
  | [] => startsWithL n []
  | c :: cs => startsWithL n (c :: cs) || containsSub n cs

/-- stripChars removes leading and trailing whitespace, modelling strip. -/
def stripChars (l : List Char) : List Char :=
  ((l.dropWhile isSpc).reverse.dropWhile isSpc).reverse

/-- Helper for replaceAll: the Nat argument counts characters still to be
skipped because they belong to an occurrence of the needle that has already
been recognized and deleted. -/
def rAux (n : List Char) : Nat → List Char → List Char
  | _, [] => []
  | s + 1, _ :: cs => rAux n s cs
  | 0, c :: cs =>
    if n ≠ [] ∧ startsWithL n (c :: cs) then rAux n (n.length - 1) cs
    else c :: rAux n 0 cs

/-- replaceAll n l deletes every occurrence of the needle n from l, scanning
left to right without overlap.  This models replace with an empty
replacement string, as the script uses it on comment markers and on the
marker at-desc. -/
def replaceAll (n l : List Char) : List Char :=
  rAux n 0 l

/-- splitOnChar sep l splits l at every occurrence of sep, keeping empty
pieces, modelling split of the script. -/
def splitOnChar (sep : Char) : List Char → List (List Char)
  | [] => [[]]
  | c :: cs =>
    match splitOnChar sep cs with
    | [] => [[]]
    | r :: rs => if c = sep then [] :: r :: rs else (c :: r) :: rs

/-- The newline split applied to a whole file content at line 53 of the
script. -/
def splitNl (l : List Char) : List (List Char) :=
  splitOnChar '\n' l

/-- The five method words of the route pattern, in the order of the
alternation of the pattern at line 71 of the script.  The spellings are
lowercase, exactly as in the pattern. -/
def methodWords : List (List Char) :=
  ["get".data, "post".data, "put".data, "delete".data, "patch".data]

/-- Tries to read one of the five method words at the head of l; on success
returns the word and the remainder of l. -/
def parseMethodAt (l : List Char) : Option (List Char × List Char) :=
  match methodWords.find? (fun w => startsWithL w l) with
  | some w => some (w, l.drop w.length)
  | none => none

/-- A quote character of the route pattern: single or double quote. -/
def isQuote (c : Char) : Bool :=
  c == '\x27' || c == '\x22'

/-- Tries to match the route pattern at the very start of l: the literal text
router dot, a lowercase method word, optional whitespace, an opening
parenthesis, optional whitespace, a quote, then the sub path up to the next
quote character.  Returns the matched method word and the captured sub
path. -/
def matchRouteAt (l : List Char) : Option (List Char × List Char) :=
  if startsWithL "router.".data l then
    match parseMethodAt (l.drop 7) with
    | some (w, r0) =>
      match r0.dropWhile isSpc with
      | '(' :: r2 =>
        match r2.dropWhile isSpc with
        | q :: r4 =>
          if isQuote q then
            match r4.dropWhile (fun c => !isQuote c) with
            | _ :: _ => some (w, r4.takeWhile (fun c => !isQuote c))
            | [] => none
          else none
        | [] => none
      | _ => none
    | none => none
  else none

/-- The leftmost-match search of the route pattern over a line, modelling the
regular-expression search at line 71 of the script. -/
def searchRoute : List Char → Option (List Char × List Char)
  | [] => none
  | c :: cs =>
    match matchRouteAt (c :: cs) with
    | some r => some r
    | none => searchRoute cs

/-- One discovered route, as assembled at lines 97 to 102 of the script. -/
structure RouteRecord where
  name : String
  method : String
  path : String
  description : String
deriving DecidableEq

/-- Concatenation of base path and sub path with the trailing slash rule of
lines 77 to 80 of the script: the trailing slash is dropped when the
concatenation ends in a slash and is longer than one character. -/
def fullPathL (base sub : List Char) : List Char :=
  let full0 := base ++ sub
  if full0.getLast? = some '/' ∧ 1 < full0.length then full0.dropLast else full0

/-- True when a buffered comment line contains the at-desc marker. -/
def hasDesc (c : List Char) : Bool :=
  containsSub "@desc".data c

/-- The text the script derives from a line carrying the at-desc marker: all
occurrences of the marker removed, then trimmed (line 88 of the script). -/
def cleanDesc (c : List Char) : List Char :=
  stripChars (replaceAll "@desc".data c)

/-- True when a buffered comment line contains neither the at-route nor the
at-access marker (the condition of line 90 of the script). -/
def plainDoc (c : List Char) : Bool :=
  !containsSub "@route".data c && !containsSub "@access".data c

/-- The loop of lines 86 to 92 of the script: folds the buffered comment
lines over the pair of description and name. -/
def descLoop : List (List Char) → List Char → List Char → List Char × List Char
  | [], d, n => (d, n)
  | c :: rest, d, n =>
    if hasDesc c then descLoop rest (cleanDesc c) (cleanDesc c)
    else if plainDoc c then descLoop rest (if d = [] then c else d) n
    else descLoop rest d n

/-- Builds the RouteRecord emitted at lines 73 to 102 of the script, from the
base path, the buffered comment lines, the matched method word and the
captured sub path. -/
def makeRoute (base : List Char) (buffer : List (List Char)) (m sub : List Char) :
    RouteRecord :=
  let method := m.map Char.toUpper
  let full := fullPathL base sub
  let dn := descLoop buffer [] (method ++ ' ' :: sub)
  let desc := if dn.1 = [] then method ++ ' ' :: full else dn.1
  { name := String.mk dn.2, method := String.mk method,
    path := String.mk full, description := String.mk desc }

/-- True when a stripped line is classified as a comment line by line 61 of
the script: it starts a block comment, continues one, or is a line
comment. -/
def isCommentLine (l : List Char) : Bool :=
  startsWithL "/**".data l || startsWithL "*".data l || startsWithL "//".data l

/-- The marker cleaning of line 65 of the script: every occurrence of the
block-open marker, then of the block-close marker, then of the star, then of
the double slash is removed, and the result is trimmed. -/
def cleanComment (l : List Char) : List Char :=
  stripChars (replaceAll "//".data (replaceAll "*".data
    (replaceAll "*/".data (replaceAll "/**".data l))))

/-- The buffer update on a comment line, lines 62 to 67 of the script: a
block-open marker resets the buffer; the cleaned text is appended when it is
non-empty. -/
def commentUpdate (buffer : List (List Char)) (l : List Char) : List (List Char) :=
  let buf0 := if startsWithL "/**".data l then ([] : List (List Char)) else buffer
  let cc := cleanComment l
  if cc = [] then buf0 else buf0 ++ [cc]

/-- One iteration of the line loop of lines 57 to 111 of the script: given
the current comment buffer and the raw line, returns the new buffer and the
emitted route, if any. -/
def step (base : List Char) (buffer : List (List Char)) (line : List Char) :
    List (List Char) × Option RouteRecord :=
  let l := stripChars line
  if isCommentLine l then (commentUpdate buffer l, none)
  else
    match searchRoute l with
    | some ms => ([], some (makeRoute base buffer ms.1 ms.2))
    | none =>
      if l = [] then (buffer, none)
      else if startsWithL "router.".data l then (buffer, none)
      else ([], none)

/-- The whole line loop: scans the lines in order, threading the comment
buffer, and collects the emitted routes in order. -/
def parseLinesAux (base : List Char) : List (List Char) → List (List Char) → List RouteRecord
  | _, [] => []
  | buffer, line :: rest =>
    match step base buffer line with
    | (buf2, none) => parseLinesAux base buf2 rest
    | (buf2, some r) => r :: parseLinesAux base buf2 rest

/-- The project root configured at line 7 of the script. -/
def PROJECT_ROOT : String :=
  "/Users/justinemahinyila/Codez/wexp/wexp-backend"

/-- The routes directory configured at line 8 of the script. -/
def ROUTES_DIR : String :=
  PROJECT_ROOT ++ "/src/routes"

/-- The joined path of a route file, as at line 38 of the script. -/
def filepathOf (filename : String) : String :=
  ROUTES_DIR ++ "/" ++ filename

/-- The function parse_route_file of the script.  The file system is passed
as a function from path to optional content; the first component of the
result collects the printed warnings.  A missing file yields one warning
naming the path and an empty route list (lines 39 to 41); an existing file
is split into lines and scanned (lines 43 to 113). -/
def parse_route_file (fs : String → Option String) (filename base_path : String) :
    List String × List RouteRecord :=
  match fs (filepathOf filename) with
  | none => (["Warning: File not found: " ++ filepathOf filename], [])
  | some content => ([], parseLinesAux base_path.data [] (splitNl content.data))

/-- The fixed mapping from route file name to base path, lines 12 to 35 of
the script, in source order. -/
def BASE_PATHS : List (String × String) :=
  [("auth.ts", "/api/auth"), ("events.ts", "/api/events"),
   ("invitations.ts", "/api/invitations"), ("tours.ts", "/api/tours"),
   ("vehicles.ts", "/api/vehicles"), ("accommodations.ts", "/api/accommodations"),
   ("test.ts", "/api/test"), ("templates.ts", "/api/templates"),
   ("budgets.ts", "/api/budgets"), ("calendar.ts", "/api/calendar"),
   ("drafts.ts", "/api/drafts"), ("users.ts", "/api/users"),
   ("ecards.ts", "/api/ecards"), ("venues.ts", "/api/venues"),
   ("decorations.ts", "/api/decorations"), ("car-import.ts", "/api/car-import"),
   ("insurance.ts", "/api/insurance"), ("landing.ts", "/api/landing"),
   ("communications.ts", "/api/communications"), ("messagingRoutes.ts", "/api/messaging"),
   ("whatsapp.routes.ts", "/api/whatsapp"), ("webhooks.ts", "/webhooks")]

/-- A key and value pair of the request header list. -/
structure HeaderKV where
  key : String
  value : String
deriving DecidableEq

/-- The url object of a request item. -/
structure UrlObj where
  raw : String
  host : List String
  path : List String
deriving DecidableEq

/-- The body object of a request item. -/
structure BodyObj where
  mode : String
  raw : String
deriving DecidableEq

/-- The request object of a request item; the body is optional, matching the
conditional insertion at lines 167 to 171 of the script. -/
structure RequestObj where
  method : String
  header : List HeaderKV
  url : UrlObj
  description : String
  body : Option BodyObj
deriving DecidableEq

/-- One request item of a folder. -/
structure RequestItem where
  name : String
  request : RequestObj
  response : List String
deriving DecidableEq

/-- One folder of the collection. -/
structure Folder where
  name : String
  item : List RequestItem
deriving DecidableEq

/-- The info header of the collection. -/
structure Info where
  name : String
  description : String
  schema : String
deriving DecidableEq

/-- The whole collection document. -/
structure Collection where
  info : Info
  item : List Folder
deriving DecidableEq

/-- The two fixed headers of every request, lines 146 to 155 of the
script. -/
def postmanHeaders : List HeaderKV :=
  [{ key := "Content-Type", value := "application/json" },
   { key := "Authorization", value := "Bearer \x7b\x7btoken\x7d\x7d" }]

/-- The fixed placeholder body added for POST, PUT and PATCH requests, lines
168 to 171 of the script. -/
def placeholderBody : BodyObj :=
  { mode := "raw", raw := "\x7b\n    \n\x7d" }

/-- The capitalize of the folder naming: the first character is uppercased
and every later character is lowercased. -/
def pyCapitalize : List Char → List Char
  | [] => []
  | c :: cs => Char.toUpper c :: cs.map Char.toLower

/-- The folder name computed at line 133 of the script: every occurrence of
the text slash api slash is removed, then every slash, then capitalize is
applied. -/
def folderNameOf (base_path : String) : String :=
  String.mk (pyCapitalize (replaceAll ['/'] (replaceAll "/api/".data base_path.data)))

/-- Builds the request item wrapped around one route, lines 142 to 171 of the
script. -/
def buildRequestItem (route : RouteRecord) : RequestItem :=
  { name := route.name
    request :=
      { method := route.method
        header := postmanHeaders
        url :=
          { raw := "\x7b\x7bbase_url\x7d\x7d" ++ route.path
            host := ["\x7b\x7bbase_url\x7d\x7d"]
            path := ((splitOnChar '/' route.path.data).filter (fun p => !p.isEmpty)).map String.mk }
        description := route.description
        body := if route.method ∈ (["POST", "PUT", "PATCH"] : List String)
                then some placeholderBody else none }
    response := [] }

/-- The folder built for one mapping entry with a non-empty route list, lines
132 to 173 of the script. -/
def folderFor (base_path : String) (routes : List RouteRecord) : Folder :=
  { name := folderNameOf base_path, item := routes.map buildRequestItem }

/-- The fixed info header of the collection, lines 116 to 123 of the
script. -/
def collectionInfo : Info :=
  { name := "WEXP Backend API",
    description := "Auto-generated Postman collection for WEXP Backend",
    schema := "https://schema.getpostman.com/json/collection/v2.1.0/collection.json" }

/-- The function generate_collection of the script, over an abstract file
system: every mapping entry is processed in order, and an entry contributes a
folder exactly when its route list is non-empty (lines 125 to 175). -/
def generate_collection (fs : String → Option String) : Collection :=
  { info := collectionInfo
    item := BASE_PATHS.filterMap (fun e =>
      if (parse_route_file fs e.1 e.2).2 = [] then none
      else some (folderFor e.2 (parse_route_file fs e.1 e.2).2)) }

/-- A concrete route record used as a witness input. -/
def postLoginRoute : RouteRecord :=
  { name := "POST /login", method := "POST", path := "/api/auth/login",
    description := "POST /api/auth/login" }

/-- A file system holding exactly one route file, used as a witness input. -/
def fsOnePost : String → Option String :=
  fun p => if p = filepathOf "auth.ts" then some "router.post(\"/login\")" else none

/-- Stated from the words of claim C2: the folder name is the base path with
the api prefix removed when it leads the path, every remaining slash removed,
the first character capitalized and every later character kept with its
original case. -/
def claimFolderName (base_path : String) : String :=
  let stripped := if startsWithL "/api/".data base_path.data
                  then base_path.data.drop 5 else base_path.data
  let noSlash := stripped.filter (fun c => c != '/')
  String.mk (match noSlash with
    | [] => []
    | c :: cs => Char.toUpper c :: cs)

/-- Stated from the words of claim C3: the trimmed text that follows the
first occurrence of the at-desc marker in a buffered line, when the marker
occurs. -/
def claimTextAfterDesc : List Char → Option (List Char)
  | [] => none
  | c :: cs =>
    if startsWithL "@desc".data (c :: cs) then some (stripChars ((c :: cs).drop 5))
    else claimTextAfterDesc cs

/-- The route declaration carried by one raw line, when the line is one of
the well-formed declaration lines of claim C5: the stripped line is not
classified as a comment and the route pattern matches it.  The value is the
pair of the uppercased method and the full path the declaration yields. -/
def routeDeclOf (base : List Char) (line : List Char) : Option (String × String) :=
  let l := stripChars line
  if isCommentLine l then none
  else (searchRoute l).map (fun ms =>
    (String.mk (ms.1.map Char.toUpper), String.mk (fullPathL base ms.2)))

theorem startsWithL_append {n l z : List Char} (h : startsWithL n l = true) :
    startsWithL n (l ++ z) = true := by
  induction n generalizing l with
  | nil => simp [startsWithL]
  | cons a as ih =>
    cases l with
    | nil => simp [startsWithL] at h
    | cons b bs =>
      simp only [startsWithL, Bool.and_eq_true] at h ⊢
      exact ⟨h.1, ih h.2⟩

theorem containsSub_nil_needle (l : List Char) : containsSub [] l = true := by
  cases l <;> simp [containsSub, startsWithL]

theorem containsSub_append_right {n y : List Char} (z : List Char)
    (h : containsSub n y = true) : containsSub n (y ++ z) = true := by
  induction y with
  | nil =>
    cases n with
    | nil => exact containsSub_nil_needle z
    | cons a as => simp [containsSub, startsWithL] at h
  | cons c cs ih =>
    simp only [containsSub, Bool.or_eq_true] at h
    rcases h with h | h
    · simp only [List.cons_append, containsSub, Bool.or_eq_true]
      exact Or.inl (startsWithL_append h)
    · simp only [List.cons_append, containsSub, Bool.or_eq_true]
      exact Or.inr (ih h)

theorem containsSub_dropWhile {n : List Char} {p : Char → Bool} {l : List Char}
    (h : containsSub n (l.dropWhile p) = true) : containsSub n l = true := by
  induction l with
  | nil => simpa using h
  | cons c cs ih =>
    by_cases hp : p c
    · rw [List.dropWhile_cons_of_pos hp] at h
      simp only [containsSub, Bool.or_eq_true]
      exact Or.inr (ih h)
    · rwa [List.dropWhile_cons_of_neg hp] at h

theorem containsSub_stripChars {n l : List Char}
    (h : containsSub n (stripChars l) = true) : containsSub n l = true := by
  have h2 := containsSub_append_right
    (((l.dropWhile isSpc).reverse.takeWhile isSpc).reverse) h
  have e : stripChars l ++ ((l.dropWhile isSpc).reverse.takeWhile isSpc).reverse
      = l.dropWhile isSpc := by
    unfold stripChars
    rw [← List.reverse_append, List.takeWhile_append_dropWhile, List.reverse_reverse]
  rw [e] at h2
  exact containsSub_dropWhile h2

theorem mem_dropWhile {a : Char} {p : Char → Bool} {l : List Char}
    (h : a ∈ l.dropWhile p) : a ∈ l := by
  induction l with
  | nil => simp at h
  | cons c cs ih =>
    by_cases hp : p c
    · rw [List.dropWhile_cons_of_pos hp] at h
      exact List.mem_cons_of_mem c (ih h)
    · rwa [List.dropWhile_cons_of_neg hp] at h

theorem mem_stripChars {a : Char} {l : List Char} (h : a ∈ stripChars l) : a ∈ l := by
  unfold stripChars at h
  rw [List.mem_reverse] at h
  have h2 := mem_dropWhile h
  rw [List.mem_reverse] at h2
  exact mem_dropWhile h2

theorem mem_rAux {a : Char} {n : List Char} : ∀ {l : List Char} {s : Nat},
    a ∈ rAux n s l → a ∈ l := by
  intro l
  induction l with
  | nil => intro s h; simp [rAux] at h
  | cons c cs ih =>
    intro s h
    cases s with
    | succ t =>
      rw [rAux] at h
      exact List.mem_cons_of_mem c (ih h)
    | zero =>
      rw [rAux] at h
      by_cases hc : n ≠ [] ∧ startsWithL n (c :: cs) = true
      · rw [if_pos hc] at h
        exact List.mem_cons_of_mem c (ih h)
      · rw [if_neg hc] at h
        rcases List.mem_cons.mp h with h | h
        · exact h ▸ List.mem_cons_self c cs
        · exact List.mem_cons_of_mem c (ih h)

theorem not_mem_rAux_single (a : Char) : ∀ (l : List Char) (s : Nat),
    a ∉ rAux [a] s l := by
  intro l
  induction l with
  | nil => intro s; simp [rAux]
  | cons c cs ih =>
    intro s
    cases s with
    | succ t => rw [rAux]; exact ih t
    | zero =>
      rw [rAux]
      by_cases hc : ([a] : List Char) ≠ [] ∧ startsWithL [a] (c :: cs) = true
      · rw [if_pos hc]; exact ih 0
      · rw [if_neg hc]
        intro hmem
        rcases List.mem_cons.mp hmem with h | h
        · apply hc
          refine ⟨by simp, ?_⟩
          simp [startsWithL, h]
        · exact ih 0 h

theorem startsWith_slash_rAux {cs : List Char}
    (h : startsWithL ['/'] cs = false) :
    startsWithL ['/'] (rAux ['/', '/'] 0 cs) = false := by
  cases cs with
  | nil => simp [rAux, startsWithL]
  | cons d cs2 =>
    simp only [startsWithL, Bool.and_eq_true] at h
    have hd : ('/' == d) = false := by
      cases hdd : ('/' == d) with
      | true => exfalso; apply absurd h; simp [hdd, startsWithL]
      | false => rfl
    rw [rAux, if_neg]
    · simp [startsWithL, hd]
    · intro hcon
      have := hcon.2
      simp [startsWithL, hd] at this

theorem no_dd_aux : ∀ (k : Nat) (l : List Char), l.length ≤ k →
    containsSub ['/', '/'] (rAux ['/', '/'] 0 l) = false := by
  intro k
  induction k with
  | zero =>
    intro l hl
    have : l = [] := List.eq_nil_of_length_eq_zero (Nat.le_zero.mp hl)
    subst this
    simp [rAux, containsSub, startsWithL]
  | succ k ih =>
    intro l hl
    cases l with
    | nil => simp [rAux, containsSub, startsWithL]
    | cons c cs =>
      by_cases hm : startsWithL ['/', '/'] (c :: cs) = true
      · cases cs with
        | nil => simp [startsWithL] at hm
        | cons d cs2 =>
          rw [rAux, if_pos ⟨by simp, hm⟩]
          have e1 : (['/', '/'] : List Char).length - 1 = 1 := rfl
          rw [e1, rAux]
          apply ih
          simp only [List.length_cons] at hl
          omega
      · rw [rAux, if_neg (fun hcon => hm hcon.2)]
        have ihcs : containsSub ['/', '/'] (rAux ['/', '/'] 0 cs) = false := by
          apply ih
          simp only [List.length_cons] at hl
          omega
        simp only [containsSub, Bool.or_eq_false_iff]
        refine ⟨?_, ihcs⟩
        cases hc : ('/' == c) with
        | false => simp [startsWithL, hc]
        | true =>
          have hcs : startsWithL ['/'] cs = false := by
            cases hcs : startsWithL ['/'] cs with
            | true => exact absurd (by simp [startsWithL, hc, hcs]) hm
            | false => rfl
          simp [startsWithL, hc, startsWith_slash_rAux hcs]

theorem no_dd_replaceAll (l : List Char) :
    containsSub ['/', '/'] (replaceAll ['/', '/'] l) = false :=
  no_dd_aux l.length l (Nat.le_refl _)

theorem descLoop_stable : ∀ (buf : List (List Char)) (d n : List Char),
    d ≠ [] → (∀ c ∈ buf, hasDesc c = false) → descLoop buf d n = (d, n) := by
  intro buf
  induction buf with
  | nil => intro d n _ _; rfl
  | cons c rest ih =>
    intro d n hd hall
    have hc : hasDesc c = false := hall c (List.mem_cons_self c rest)
    rw [descLoop, if_neg (by simp [hc])]
    by_cases hp : plainDoc c = true
    · rw [if_pos hp, if_neg hd]
      exact ih d n hd (fun x hx => hall x (List.mem_cons_of_mem c hx))
    · rw [if_neg hp]
      exact ih d n hd (fun x hx => hall x (List.mem_cons_of_mem c hx))

theorem descLoop_last_desc : ∀ (buf : List (List Char)) (d n L : List Char),
    (buf.filter hasDesc).getLast? = some L → cleanDesc L ≠ [] →
    descLoop buf d n = (cleanDesc L, cleanDesc L) := by
  intro buf
  induction buf with
  | nil => intro d n L hL _; simp at hL
  | cons c rest ih =>
    intro d n L hL hcl
    by_cases hc : hasDesc c = true
    · rw [descLoop, if_pos hc]
      rw [List.filter_cons, if_pos hc] at hL
      cases hfr : rest.filter hasDesc with
      | nil =>
        rw [hfr, List.getLast?_singleton] at hL
        obtain rfl : c = L := Option.some.inj hL
        exact descLoop_stable rest (cleanDesc c) (cleanDesc c) hcl
          (fun x hx => by
            have := List.filter_eq_nil_iff.mp hfr x hx
            simpa using this)
      | cons y ys =>
        rw [hfr, List.getLast?_cons_cons] at hL
        exact ih (cleanDesc c) (cleanDesc c) L (by rw [hfr]; exact hL) hcl
    · rw [descLoop, if_neg hc]
      rw [List.filter_cons, if_neg hc] at hL
      by_cases hp : plainDoc c = true
      · rw [if_pos hp]
        exact ih _ n L hL hcl
      · rw [if_neg hp]
        exact ih d n L hL hcl

theorem descLoop_no_desc : ∀ (buf : List (List Char)) (n : List Char),
    (∀ c ∈ buf, hasDesc c = false) → (∀ c ∈ buf, c ≠ []) →
    descLoop buf [] n = ((buf.find? plainDoc).getD [], n) := by
  intro buf
  induction buf with
  | nil => intro n _ _; rfl
  | cons c rest ih =>
    intro n hall hne
    have hc : hasDesc c = false := hall c (List.mem_cons_self c rest)
    rw [descLoop, if_neg (by simp [hc])]
    by_cases hp : plainDoc c = true
    · rw [if_pos hp, if_pos rfl, List.find?_cons_of_pos rest hp]
      exact descLoop_stable rest c n (hne c (List.mem_cons_self c rest))
        (fun x hx => hall x (List.mem_cons_of_mem c hx))
    · rw [if_neg hp, List.find?_cons_of_neg rest (by simp [hp])]
      exact ih n (fun x hx => hall x (List.mem_cons_of_mem c hx))
        (fun x hx => hne x (List.mem_cons_of_mem c hx))

theorem step_snd (base : List Char) (buffer : List (List Char)) (line : List Char) :
    (step base buffer line).2 =
      (if isCommentLine (stripChars line) = true then none
       else (searchRoute (stripChars line)).map
         (fun ms => makeRoute base buffer ms.1 ms.2)) := by
  unfold step
  by_cases hc : isCommentLine (stripChars line) = true
  · simp [hc]
  · simp only [hc, if_false, Bool.false_eq_true]
    cases hs : searchRoute (stripChars line) with
    | some ms => simp
    | none =>
      simp only [Option.map_none]
      by_cases hb : stripChars line = []
      · simp [hb]
      · by_cases hr : startsWithL "router.".data (stripChars line) = true
        · simp [hb, hr]
        · simp [hb, hr]

theorem parseMethodAt_mem {l w r : List Char} (h : parseMethodAt l = some (w, r)) :
    w ∈ methodWords := by
  unfold parseMethodAt at h
  cases hf : methodWords.find? (fun x => startsWithL x l) with
  | none => rw [hf] at h; exact absurd h (by simp)
  | some v =>
    rw [hf] at h
    have hv := List.mem_of_find?_eq_some hf
    have : v = w := congrArg Prod.fst (Option.some.inj h)
    exact this ▸ hv

theorem matchRouteAt_mem {l m s : List Char} (h : matchRouteAt l = some (m, s)) :
    m ∈ methodWords := by
  unfold matchRouteAt at h
  by_cases h0 : startsWithL "router.".data l = true
  · rw [if_pos h0] at h
    cases hp : parseMethodAt (l.drop 7) with
    | none => rw [hp] at h; exact absurd h (by simp)
    | some wr =>
      rw [hp] at h
      obtain ⟨w, r0⟩ := wr
      have hw := parseMethodAt_mem hp
      repeat' split at h
      all_goals try exact Option.noConfusion h
      simp only [Option.some.injEq, Prod.mk.injEq] at h
      obtain ⟨hm, -⟩ := h
      subst hm
      simp_all
  · rw [if_neg h0] at h
    exact absurd h (by simp)

theorem searchRoute_mem : ∀ {l m s : List Char}, searchRoute l = some (m, s) →
    m ∈ methodWords := by
  intro l
  induction l with
  | nil => intro m s h; exact Option.noConfusion h
  | cons c cs ih =>
    intro m s h
    rw [searchRoute] at h
    cases hm : matchRouteAt (c :: cs) with
    | some r =>
      rw [hm] at h
      obtain ⟨a, b⟩ := r
      have : (a, b) = (m, s) := Option.some.inj h
      obtain ⟨rfl, rfl⟩ := Prod.mk.inj this
      exact matchRouteAt_mem hm
    | none =>
      rw [hm] at h
      exact ih h

theorem parse_proj (base : List Char) : ∀ (lines : List (List Char))
    (buffer : List (List Char)),
    (parseLinesAux base buffer lines).map (fun r => (r.method, r.path))
      = lines.filterMap (routeDeclOf base) := by
  intro lines
  induction lines with
  | nil => intro buffer; rfl
  | cons line rest ih =>
    intro buffer
    rw [parseLinesAux, List.filterMap_cons]
    rcases hs : step base buffer line with ⟨buf2, out⟩
    have hsnd := step_snd base buffer line
    rw [hs] at hsnd
    unfold routeDeclOf
    by_cases hc : isCommentLine (stripChars line) = true
    · rw [if_pos hc] at hsnd ⊢
      cases out with
      | none => simp only; exact ih buf2
      | some r => exact Option.noConfusion hsnd
    · rw [if_neg hc] at hsnd ⊢
      cases hr : searchRoute (stripChars line) with
      | none =>
        rw [hr] at hsnd
        simp only [Option.map_none] at hsnd ⊢
        cases out with
        | none => exact ih buf2
        | some r => exact Option.noConfusion hsnd
      | some ms =>
        rw [hr] at hsnd
        simp only [Option.map_some] at hsnd ⊢
        cases out with
        | none => exact Option.noConfusion hsnd
        | some r =>
          have hrr : r = makeRoute base buffer ms.1 ms.2 := by simpa using hsnd
          subst hrr
          simp [makeRoute, ih buf2]
          rfl

theorem containsSub_single {a : Char} : ∀ {l : List Char},
    containsSub [a] l = true → a ∈ l := by
  intro l
  induction l with
  | nil => intro h; simp [containsSub, startsWithL] at h
  | cons c cs ih =>
    intro h
    simp only [containsSub, Bool.or_eq_true] at h
    rcases h with h | h
    · have hac : a = c := by simpa [startsWithL] using h
      exact List.mem_cons.mpr (Or.inl hac)
    · exact List.mem_cons_of_mem c (ih h)

theorem folders_from_entries (fs : String → Option String) (f : Folder)
    (hf : f ∈ (generate_collection fs).item) :
    ∃ e ∈ BASE_PATHS, (parse_route_file fs e.1 e.2).2 ≠ []
      ∧ f = folderFor e.2 (parse_route_file fs e.1 e.2).2 := by
  obtain ⟨e, he, hsome⟩ := List.mem_filterMap.mp hf
  by_cases hr : (parse_route_file fs e.1 e.2).2 = []
  · rw [if_pos hr] at hsome
    exact Option.noConfusion hsome
  · rw [if_neg hr] at hsome
    exact ⟨e, he, hr, (Option.some.inj hsome).symm⟩

/-- Claim C6: the full path is the concatenation of base path and sub path,
with the trailing slash dropped exactly when the concatenation ends in a
slash and is longer than one character; in particular sub path slash under
base path slash api slash foo gives the base path back, and a sub path
ending in a slash loses that slash. -/
theorem C6_full_path :
    (∀ b s : List Char,
      ((b ++ s).getLast? = some '/' ∧ 1 < (b ++ s).length →
          fullPathL b s = (b ++ s).dropLast)
      ∧ (¬((b ++ s).getLast? = some '/' ∧ 1 < (b ++ s).length) →
          fullPathL b s = b ++ s))
    ∧ fullPathL "/api/foo".data "/".data = "/api/foo".data
    ∧ fullPathL "/api/foo".data "/bar/".data = "/api/foo/bar".data := by
  refine ⟨fun b s => ⟨fun h => ?_, fun h => ?_⟩, by decide, by decide⟩
  · simp only [fullPathL]
    rw [if_pos h]
  · simp only [fullPathL]
    rw [if_neg h]

/-- Witness for C6 at concrete inputs, one for each branch of the rule. -/
theorem C6_full_path_witness :
    fullPathL "/a".data "/".data = ("/a".data ++ "/".data).dropLast
    ∧ fullPathL "/a".data "/b".data = "/a".data ++ "/b".data :=
  ⟨(C6_full_path.1 "/a".data "/".data).1 (by decide),
   (C6_full_path.1 "/a".data "/b".data).2 (by decide)⟩

/-- Claim C10: a line whose stripped text is classified as a comment line
never emits a route, whatever the buffer and base path are; the comment
check of line 61 of the script runs before the route match of line 71. -/
theorem C10_comment_precedence (base : List Char) (buffer : List (List Char))
    (line : List Char) (h : isCommentLine (stripChars line) = true) :
    (step base buffer line).2 = none := by
  rw [step_snd, if_pos h]

/-- Witness for C10: a comment line that even contains a well-formed route
declaration still emits nothing. -/
theorem C10_comment_precedence_witness :
    (step "/api".data [] "// router.get(\"/x\")".data).2 = none
    ∧ searchRoute (stripChars "// router.get(\"/x\")".data) ≠ none :=
  ⟨C10_comment_precedence "/api".data [] "// router.get(\"/x\")".data (by decide),
   by decide⟩

/-- Claim C7: the documentation buffer is cleared when a route is emitted; a
blank line leaves it untouched; a non-comment, non-route, non-blank line
clears it unless the stripped line starts with the route-call text. -/
theorem C7_buffer_discipline (base : List Char) (buffer : List (List Char))
    (line : List Char) :
    (∀ r, (step base buffer line).2 = some r → (step base buffer line).1 = [])
    ∧ (stripChars line = [] → (step base buffer line).1 = buffer)
    ∧ (isCommentLine (stripChars line) = false →
        searchRoute (stripChars line) = none →
        stripChars line ≠ [] →
        (step base buffer line).1 =
          (if startsWithL "router.".data (stripChars line) then buffer else [])) := by
  refine ⟨?_, ?_, ?_⟩
  · intro r h
    rw [step_snd] at h
    by_cases hc : isCommentLine (stripChars line) = true
    · rw [if_pos hc] at h
      exact Option.noConfusion h
    · rw [if_neg hc] at h
      cases hr : searchRoute (stripChars line) with
      | none => rw [hr] at h; exact Option.noConfusion h
      | some ms =>
        unfold step
        simp [hc, hr]
  · intro hb
    unfold step
    rw [hb]
    exact rfl
  · intro hc hr hnb
    unfold step
    simp only [hc, Bool.false_eq_true, if_false, hr]
    rw [if_neg hnb]
    split <;> rfl

/-- Witness for C7: a plain code line clears a non-empty buffer, an emitting
line clears it, and a blank line keeps it. -/
theorem C7_buffer_discipline_witness :
    (step "/api".data ["doc".data] "const a = 1;".data).1 =
      (if startsWithL "router.".data (stripChars "const a = 1;".data)
       then ["doc".data] else [])
    ∧ (step "/api".data ["doc".data] "router.get(\"/x\")".data).1 = []
    ∧ (step "/api".data ["doc".data] ([] : List Char)).1 = ["doc".data] :=
  ⟨(C7_buffer_discipline "/api".data ["doc".data] "const a = 1;".data).2.2
      (by decide) (by decide) (by decide),
   (C7_buffer_discipline "/api".data ["doc".data] "router.get(\"/x\")".data).1
      (makeRoute "/api".data ["doc".data] "get".data "/x".data) (by decide),
   (C7_buffer_discipline "/api".data ["doc".data] ([] : List Char)).2.1
      (by decide)⟩

/-- Claim C1, counterexample: the route pattern of line 71 of the script is
case sensitive, so the uppercase spelling of the method is not recognized
while the lowercase spelling is, refuting case-insensitive recognition. -/
theorem C1_counterexample :
    parseLinesAux "/api/x".data [] ["router.GET(\"/x\")".data] = []
    ∧ (parseLinesAux "/api/x".data [] ["router.get(\"/x\")".data]).map
        (fun r => r.method) = ["GET"] := by
  decide

/-- Claim C1 as amended: recognition requires the lowercase spelling of the
method in the source, and every emitted route carries the uppercase form of
one of the five methods in its method field. -/
theorem C1_methods_uppercased (base : List Char) (buffer lines : List (List Char))
    (r : RouteRecord) (h : r ∈ parseLinesAux base buffer lines) :
    r.method ∈ (["GET", "POST", "PUT", "DELETE", "PATCH"] : List String) := by
  have hmem : (r.method, r.path) ∈
      (parseLinesAux base buffer lines).map (fun r => (r.method, r.path)) :=
    List.mem_map_of_mem _ h
  rw [parse_proj base lines buffer] at hmem
  obtain ⟨line, hline, hdecl⟩ := List.mem_filterMap.mp hmem
  unfold routeDeclOf at hdecl
  by_cases hc : isCommentLine (stripChars line) = true
  · rw [if_pos hc] at hdecl
    exact Option.noConfusion hdecl
  · rw [if_neg hc] at hdecl
    cases hr : searchRoute (stripChars line) with
    | none =>
      rw [hr] at hdecl
      exact Option.noConfusion hdecl
    | some ms =>
      rw [hr, Option.map_some'] at hdecl
      have hdecl2 := Option.some.inj hdecl
      have hw := searchRoute_mem hr
      have hmeth : r.method = String.mk (ms.1.map Char.toUpper) :=
        (congrArg Prod.fst hdecl2).symm
      rw [hmeth]
      simp [methodWords] at hw
      rcases hw with h1 | h1 | h1 | h1 | h1 <;> rw [h1] <;> decide

/-- Witness for the amended claim C1 at a concrete parsed file. -/
theorem C1_methods_uppercased_witness :
    ({ name := "GET /x", method := "GET", path := "/api/x",
       description := "GET /api/x" } : RouteRecord).method
      ∈ (["GET", "POST", "PUT", "DELETE", "PATCH"] : List String) :=
  C1_methods_uppercased "/api".data [] ["router.get(\"/x\")".data] _ (by decide)

/-- Claim C2: for every entry of the fixed mapping the folder name computed
by the script agrees with the claimed description (strip the api prefix and
the slashes, uppercase the first character, keep the rest unchanged), and
every folder of the output takes its name from a mapping entry this way. -/
theorem C2_folder_name :
    (∀ e ∈ BASE_PATHS, folderNameOf e.2 = claimFolderName e.2)
    ∧ (∀ (fs : String → Option String) (f : Folder),
        f ∈ (generate_collection fs).item →
        ∃ e ∈ BASE_PATHS, f.name = folderNameOf e.2) := by
  constructor
  · decide
  · intro fs f hf
    obtain ⟨e, he, _, hfolder⟩ := folders_from_entries fs f hf
    exact ⟨e, he, by rw [hfolder]; rfl⟩

/-- Witness for C2 at the first mapping entry, and for the origin of a
concrete generated folder. -/
theorem C2_folder_name_witness :
    folderNameOf "/api/auth" = claimFolderName "/api/auth"
    ∧ ∃ e ∈ BASE_PATHS,
        (folderFor "/api/auth" [postLoginRoute]).name = folderNameOf e.2 :=
  ⟨C2_folder_name.1 ("auth.ts", "/api/auth") (by decide),
   C2_folder_name.2 fsOnePost (folderFor "/api/auth" [postLoginRoute])
     (by decide)⟩

/-- Claim C5: the routes returned for a list of lines correspond one to one,
in order, to the lines carrying a well-formed route declaration: projecting
each emitted record to its method and path gives exactly the declaration
data of those lines, so a file with exactly N declaration lines yields
exactly N records in declaration order. -/
theorem C5_completeness (base : List Char) (lines : List (List Char)) :
    (parseLinesAux base [] lines).map (fun r => (r.method, r.path))
        = lines.filterMap (routeDeclOf base)
    ∧ (parseLinesAux base [] lines).length
        = (lines.filterMap (routeDeclOf base)).length := by
  refine ⟨parse_proj base lines [], ?_⟩
  rw [← parse_proj base lines []]
  exact (List.length_map _ _).symm

/-- Claim C3, counterexample: when text precedes the at-desc marker on a
buffered line, the script keeps that text too (it removes the marker from
the whole line), so the description is not the trimmed text following the
marker. -/
theorem C3_counterexample :
    (parseLinesAux "/api".data []
        ["// foo @desc bar".data, "router.get(\"/x\")".data]).map
      (fun r => r.description) = ["foo  bar"]
    ∧ claimTextAfterDesc "foo @desc bar".data = some "bar".data
    ∧ ("foo  bar" : String) ≠ "bar" := by
  decide

/-- Claim C3 as amended: when a buffered line carries the at-desc marker,
the last such line with all marker occurrences removed and the result
trimmed becomes both description and name, provided that text is non-empty;
when no buffered line carries the marker, the name keeps its default of
method and sub path, and the description is the first buffered line free of
the at-route and at-access markers, or the default of method and full path
when no such line exists.  The hypothesis that buffered lines are non-empty
holds for every buffer the scanner builds, since only non-empty cleaned
text is appended. -/
theorem C3_description_rules (base : List Char) (buffer : List (List Char))
    (m sub : List Char) (hne : ∀ c ∈ buffer, c ≠ []) :
    (∀ L, (buffer.filter hasDesc).getLast? = some L → cleanDesc L ≠ [] →
        (makeRoute base buffer m sub).description = String.mk (cleanDesc L)
        ∧ (makeRoute base buffer m sub).name = String.mk (cleanDesc L))
    ∧ ((∀ c ∈ buffer, hasDesc c = false) →
        (makeRoute base buffer m sub).name
            = String.mk (m.map Char.toUpper ++ ' ' :: sub)
        ∧ (makeRoute base buffer m sub).description
            = String.mk (match buffer.find? plainDoc with
                | some c => c
                | none => m.map Char.toUpper ++ ' ' :: fullPathL base sub)) := by
  constructor
  · intro L hL hcl
    have hd := descLoop_last_desc buffer [] (m.map Char.toUpper ++ ' ' :: sub) L hL hcl
    simp only [makeRoute]
    rw [hd]
    simp [hcl]
  · intro hnod
    have hd := descLoop_no_desc buffer (m.map Char.toUpper ++ ' ' :: sub) hnod hne
    simp only [makeRoute]
    rw [hd]
    cases hf : buffer.find? plainDoc with
    | some c =>
      have hcne : c ≠ [] := hne c (List.mem_of_find?_eq_some hf)
      simp [hcne]
    | none => simp

/-- Witness for the amended claim C3: a buffer with the at-desc marker, and
a buffer with a plain documentation line. -/
theorem C3_description_rules_witness :
    ((makeRoute "/api".data ["@desc Hello".data] "get".data "/x".data).description
        = String.mk (cleanDesc "@desc Hello".data)
      ∧ (makeRoute "/api".data ["@desc Hello".data] "get".data "/x".data).name
        = String.mk (cleanDesc "@desc Hello".data))
    ∧ ((makeRoute "/api".data ["Hello doc".data] "get".data "/x".data).name
        = String.mk ("get".data.map Char.toUpper ++ ' ' :: "/x".data)
      ∧ (makeRoute "/api".data ["Hello doc".data] "get".data "/x".data).description
        = String.mk (match (["Hello doc".data] : List (List Char)).find? plainDoc with
            | some c => c
            | none => "get".data.map Char.toUpper ++ ' ' :: fullPathL "/api".data "/x".data)) :=
  ⟨(C3_description_rules "/api".data ["@desc Hello".data] "get".data "/x".data
      (by decide)).1 "@desc Hello".data (by decide) (by decide),
   (C3_description_rules "/api".data ["Hello doc".data] "get".data "/x".data
      (by decide)).2 (by decide)⟩

/-- Claim C4, counterexample: a double slash inside the comment text is not
preserved when the line is buffered; the script removes every occurrence of
the markers, not only the leading ones. -/
theorem C4_counterexample :
    (step "/api".data [] "// see http://example.com".data).1
        = ["see http:example.com".data]
    ∧ "see http:example.com".data ≠ "see http://example.com".data := by
  decide

/-- Claim C4 as amended: the cleaning of a documentation line removes every
occurrence of the markers throughout the line, so the buffered text never
contains a star character nor a double slash. -/
theorem C4_markers_removed_everywhere (l : List Char) :
    containsSub "*".data (cleanComment l) = false
    ∧ containsSub "//".data (cleanComment l) = false := by
  have hdd : "//".data = ['/', '/'] := by decide
  have hstar : "*".data = ['*'] := by decide
  constructor
  · cases hc : containsSub "*".data (cleanComment l) with
    | false => rfl
    | true =>
      exfalso
      rw [hstar] at hc
      have hmem := containsSub_single hc
      unfold cleanComment at hmem
      have h1 := mem_stripChars hmem
      have h2 := mem_rAux h1
      rw [hstar] at h2
      exact not_mem_rAux_single '*' _ 0 h2
  · cases hc : containsSub "//".data (cleanComment l) with
    | false => rfl
    | true =>
      exfalso
      unfold cleanComment at hc
      have h1 := containsSub_stripChars hc
      rw [hdd] at h1
      have h2 := no_dd_replaceAll
        (replaceAll "*".data (replaceAll "*/".data (replaceAll "/**".data l)))
      rw [h1] at h2
      exact Bool.noConfusion h2

/-- Claim C8: a missing source file yields exactly one warning naming the
missing path and an empty route list; every folder of the output comes from
a mapping entry whose route list is non-empty, so a missing file or a file
without recognizable routes contributes no folder; and every entry with a
non-empty route list still contributes its folder, so the run continues over
the remaining entries. -/
theorem C8_missing_file (fs : String → Option String) :
    (∀ fn bp : String, fs (filepathOf fn) = none →
        parse_route_file fs fn bp
          = (["Warning: File not found: " ++ filepathOf fn], []))
    ∧ (∀ f : Folder, f ∈ (generate_collection fs).item →
        ∃ e ∈ BASE_PATHS, (parse_route_file fs e.1 e.2).2 ≠ []
          ∧ f = folderFor e.2 (parse_route_file fs e.1 e.2).2)
    ∧ (∀ e ∈ BASE_PATHS, (parse_route_file fs e.1 e.2).2 ≠ [] →
        folderFor e.2 (parse_route_file fs e.1 e.2).2
          ∈ (generate_collection fs).item) := by
  refine ⟨?_, ?_, ?_⟩
  · intro fn bp h
    unfold parse_route_file
    rw [h]
  · intro f hf
    exact folders_from_entries fs f hf
  · intro e he hr
    refine List.mem_filterMap.mpr ⟨e, he, ?_⟩
    rw [if_neg hr]

/-- Witness for C8: with an empty file system the first mapping entry yields
one warning and no routes; with one existing route file its folder is
generated, and that folder arises from a mapping entry. -/
theorem C8_missing_file_witness :
    (parse_route_file (fun _ => none) "auth.ts" "/api/auth"
      = (["Warning: File not found: " ++ filepathOf "auth.ts"], []))
    ∧ folderFor "/api/auth" (parse_route_file fsOnePost "auth.ts" "/api/auth").2
        ∈ (generate_collection fsOnePost).item
    ∧ ∃ e ∈ BASE_PATHS, (parse_route_file fsOnePost e.1 e.2).2 ≠ []
        ∧ folderFor "/api/auth" [postLoginRoute]
            = folderFor e.2 (parse_route_file fsOnePost e.1 e.2).2 :=
  ⟨(C8_missing_file (fun _ => none)).1 "auth.ts" "/api/auth" rfl,
   (C8_missing_file fsOnePost).2.2 ("auth.ts", "/api/auth") (by decide) (by decide),
   (C8_missing_file fsOnePost).2.1 (folderFor "/api/auth" [postLoginRoute])
     (by decide)⟩

/-- Claim C9: every request item of the output carries a body exactly when
its method is POST, PUT or PATCH, and a present body is the fixed
placeholder. -/
theorem C9_body_rule (fs : String → Option String) (f : Folder)
    (ri : RequestItem) (hf : f ∈ (generate_collection fs).item)
    (hr : ri ∈ f.item) :
    (ri.request.body ≠ none
        ↔ ri.request.method ∈ (["POST", "PUT", "PATCH"] : List String))
    ∧ (ri.request.body = none ∨ ri.request.body = some placeholderBody) := by
  obtain ⟨e, _, _, rfl⟩ := folders_from_entries fs f hf
  obtain ⟨route, _, rfl⟩ := List.mem_map.mp hr
  by_cases hm : route.method ∈ (["POST", "PUT", "PATCH"] : List String)
  · constructor
    · simp [buildRequestItem, hm]
    · right
      simp [buildRequestItem, hm]
  · constructor
    · simp [buildRequestItem, hm]
    · left
      simp [buildRequestItem, hm]

/-- Witness for C9 at a file system holding one POST route. -/
theorem C9_body_rule_witness :
    ((buildRequestItem postLoginRoute).request.body ≠ none
      ↔ (buildRequestItem postLoginRoute).request.method
          ∈ (["POST", "PUT", "PATCH"] : List String))
    ∧ ((buildRequestItem postLoginRoute).request.body = none
        ∨ (buildRequestItem postLoginRoute).request.body
            = some placeholderBody) :=
  C9_body_rule fsOnePost (folderFor "/api/auth" [postLoginRoute])
    (buildRequestItem postLoginRoute) (by decide) (by decide)

end Postman
